import Mathlib

/-!
The neokikoeru manifest generator, `cmd/neokikoeru/main.go`: a shallow embedding
of the one-shot pipeline Resolve → Fetch → Map → Render, and the properties of it
that the specification states.

Conventions of the embedding:
* a Go `string` is a Lean `String`, a sequence of Unicode code points, which is
  how Go's `regexp` reads its input;
* a Go `error` is its message text, `err.Error()`;
* everything the program reads from outside (environment, HTTP transport, JSON
  decoding, template parsing and execution, the filesystem) is a field of `World`;
* a run of `main` is the list of externally visible events it performs, in
  order, and the exit status of the process;
* `log.Fatal` and `log.Fatalf` end the process through `os.Exit(1)`, which runs no
  deferred call; a panic runs the deferred calls and ends the process with status 2.
-/

namespace Neokikoeru

/-! ## Constants (main.go, lines 17-21) -/

def _versionEnvKey : String := "NEOKIKOERU_VERSION"
def _assetNameWindowsAmd64 : String := "neokikoeru-windows-amd64.zip"
def _assetNameWindowsArm64 : String := "neokikoeru-windows-arm64.zip"

/-! ## Data model (main.go, lines 27-50) -/

structure Bucket where
  Version : String
  DownloadUrlWindowsAmd64 : String
  Sha256WindowsAmd64 : String
  DownloadUrlWindowsArm64 : String
  Sha256WindowsArm64 : String
  deriving DecidableEq, Repr

structure Asset where
  Name : String
  Digest : String
  BrowserDownloadUrl : String
  deriving DecidableEq, Repr

structure Release where
  Name : String
  Assets : List Asset
  deriving DecidableEq, Repr

structure Error where
  Message : String
  deriving DecidableEq, Repr

/-! ## `strings.HasPrefix` and `strings.TrimPrefix` -/

/-- Go `strings.HasPrefix(s, pfx)`: `len(s) >= len(pfx) && s[:len(pfx)] == pfx`. -/
def HasPrefix (s pfx : String) : Bool :=
  decide (pfx.data.length ≤ s.data.length) && decide (s.data.take pfx.data.length = pfx.data)

/-- Go `strings.TrimPrefix(s, pfx)`: `s[len(pfx):]` when `HasPrefix(s, pfx)`, else `s`. -/
def TrimPrefix (s pfx : String) : String :=
  if HasPrefix s pfx then String.mk (s.data.drop pfx.data.length) else s

/-! ## The asset mapper (main.go, lines 94-106) -/

/-- One iteration of the `for _, asset := range release.Assets` loop: the
`switch asset.Name` of lines 98-105. -/
def mapStep (bucket : Bucket) (asset : Asset) : Bucket :=
  if asset.Name = _assetNameWindowsAmd64 then
    { bucket with
      DownloadUrlWindowsAmd64 := asset.BrowserDownloadUrl
      Sha256WindowsAmd64 := TrimPrefix asset.Digest "sha256:" }
  else if asset.Name = _assetNameWindowsArm64 then
    { bucket with
      DownloadUrlWindowsArm64 := asset.BrowserDownloadUrl
      Sha256WindowsArm64 := TrimPrefix asset.Digest "sha256:" }
  else
    bucket

/-- Lines 94-106: `bucket := &Bucket{Version: version}` followed by the loop
over `release.Assets`. -/
def mapAssets (version : String) (assets : List Asset) : Bucket :=
  assets.foldl mapStep
    { Version := version
      DownloadUrlWindowsAmd64 := ""
      Sha256WindowsAmd64 := ""
      DownloadUrlWindowsArm64 := ""
      Sha256WindowsArm64 := "" }

/-! ## `regexp`: the fragment used by `_versionRegex` -/

/-- Abstract syntax of the regular expressions needed for the pattern of line 24. -/
inductive Regex where
  /-- The assertion `^` (no `m` flag): the beginning of the text. -/
  | beginText : Regex
  /-- The assertion `$` (no `m` flag): the end of the text. -/
  | endText : Regex
  /-- A literal character, such as `\.`. -/
  | lit (c : Char) : Regex
  /-- A character class given by one range, such as `[0-9]`. -/
  | range (lo hi : Char) : Regex
  /-- One or more repetitions, `r+`. -/
  | plus (r : Regex) : Regex
  /-- Concatenation. -/
  | cat (r s : Regex) : Regex
  deriving DecidableEq, Repr

/-- A position of the matcher in the text: the number of characters before it
and the characters from it on. -/
abbrev Pos := Nat × List Char

/-- All positions reachable from `p` by one or more rounds of `step`; a round
that consumed nothing is not repeated. -/
def iterate (step : Pos → List Pos) : Nat → Pos → List Pos
  | 0, _ => []
  | fuel + 1, p =>
    (step p).flatMap fun q =>
      q :: (if q.2.length < p.2.length then iterate step fuel q else [])

/-- The positions at which a match of `r` that starts at `p` can end. -/
def Regex.ends : Regex → Pos → List Pos
  | .beginText, p => if p.1 = 0 then [p] else []
  | .endText, p => if p.2 = [] then [p] else []
  | .lit c, p =>
    match p.2 with
    | [] => []
    | x :: xs => if x = c then [(p.1 + 1, xs)] else []
  | .range lo hi, p =>
    match p.2 with
    | [] => []
    | x :: xs => if lo.toNat ≤ x.toNat ∧ x.toNat ≤ hi.toNat then [(p.1 + 1, xs)] else []
  | .plus r, p => iterate r.ends (p.2.length + 1) p
  | .cat r s, p => (r.ends p).flatMap s.ends

/-- Every position of a text: offset `i` paired with the text from `i` on. -/
def positions : Nat → List Char → List Pos
  | i, [] => [(i, [])]
  | i, x :: xs => (i, x :: xs) :: positions (i + 1) xs

/-- Go `(*Regexp).MatchString`: whether the text contains a match of `re`,
starting anywhere. -/
def Regex.MatchString (re : Regex) (s : String) : Bool :=
  (positions 0 s.data).any fun p => !(re.ends p).isEmpty

/-- Line 24: `regexp.MustCompile` of the pattern `^[0-9]+\.[0-9]+\.[0-9]+$`. -/
def _versionRegex : Regex :=
  .cat .beginText
    (.cat (.plus (.range '0' '9'))
      (.cat (.lit '.')
        (.cat (.plus (.range '0' '9'))
          (.cat (.lit '.')
            (.cat (.plus (.range '0' '9')) .endText)))))

/-- The test of line 83, negated: `main` goes on with `version` exactly when
this holds. -/
def versionAccepted (version : String) : Bool :=
  !(version = "" || !_versionRegex.MatchString version)

/-! ## `fmt.Sprintf`: literal text, `%s` and `%%` -/

/-- What `fmt` appends for operands no verb consumed. -/
def Sprintf.extra : List String → List Char
  | [] => []
  | a :: [] => "string=".data ++ a.data
  | a :: b :: rest => "string=".data ++ a.data ++ ", ".data ++ Sprintf.extra (b :: rest)

/-- The scan of a format over its operands: `%s` writes the next operand
unchanged, `%%` writes a percent sign, other text is copied. -/
def Sprintf.go : List Char → List String → List Char
  | [], [] => []
  | [], a :: args => "%!(EXTRA ".data ++ Sprintf.extra (a :: args) ++ ")".data
  | [c], args =>
    if c = '%' then "%!(NOVERB)".data ++ Sprintf.go [] args else c :: Sprintf.go [] args
  | c :: d :: rest, args =>
    if c = '%' then
      if d = 's' then
        match args with
        | a :: args' => a.data ++ Sprintf.go rest args'
        | [] => "%!s(MISSING)".data ++ Sprintf.go rest []
      else if d = '%' then '%' :: Sprintf.go rest args
      else c :: Sprintf.go (d :: rest) args
    else c :: Sprintf.go (d :: rest) args

/-- Go `fmt.Sprintf` for formats made of literal text, `%s` and `%%`, with
string operands. -/
def Sprintf (format : String) (args : List String) : String :=
  String.mk (Sprintf.go format.data args)

/-! ## The outside world and the events of a run -/

/-- An `*http.Request` as `fetchRelease` builds it. -/
structure Request where
  Method : String
  URL : String
  Header : List (String × String)
  deriving DecidableEq, Repr

/-- The parts of an `*http.Response` that `fetchRelease` reads. -/
structure Response where
  StatusCode : Int
  Body : String
  deriving DecidableEq, Repr

/-- Everything `main` obtains from outside the program. A failing call yields
the text of its error. -/
structure World where
  /-- The call `os.Getenv`. -/
  Getenv : String → String
  /-- The call `http.DefaultClient.Do`, under the 10 second deadline of line 87. -/
  Do : Request → Except String Response
  /-- The call `json.NewDecoder(resp.Body).Decode(v)` for `v := new(Error)`. -/
  DecodeError : String → Except String Error
  /-- The call `json.NewDecoder(resp.Body).Decode(v)` for `v := new(Release)`. -/
  DecodeRelease : String → Except String Release
  /-- The call `template.ParseFiles`. -/
  ParseFiles : String → Except String Unit
  /-- The call `os.OpenFile` with `O_WRONLY|O_CREATE|O_TRUNC`. -/
  OpenFile : String → Except String Unit
  /-- The call `tmpl.Execute(bucketFile, bucket)`. -/
  Execute : Bucket → Except String Unit

/-- What a run does that is visible from outside, one constructor per kind of call. -/
inductive Event where
  | getenv (key : String)
  | httpDo (req : Request)
  /-- The deferred `resp.Body.Close()` of line 62. -/
  | bodyClose
  | parseFiles (path : String)
  | openFile (path : String)
  | execute (bucket : Bucket)
  /-- The deferred `bucketFile.Close()` of line 113. -/
  | fileClose
  /-- The deferred `cancel()` of line 88. -/
  | cancel
  /-- The calls `log.Fatal` and `log.Fatalf`: the message is logged and the process
  ends through `os.Exit(1)`, which runs no deferred call. -/
  | logFatal (msg : String)
  /-- A panic (from `template.Must`): deferred calls run, then the process ends
  with status 2. -/
  | panicked (msg : String)
  deriving DecidableEq, Repr

/-- A run of the program: its events in order and the exit status. -/
structure Run where
  events : List Event
  exit : Nat
  deriving DecidableEq, Repr

/-! ## `fetchRelease` (main.go, lines 52-79) -/

/-- Line 53: the request URL. -/
def fetchRelease.url (version : String) : String :=
  Sprintf "https://api.github.com/repos/vscodev/neokikoeru/releases/tags/v%s" [version]

/-- Lines 54-56: the request. -/
def fetchRelease.req (version : String) : Request :=
  { Method := "GET"
    URL := fetchRelease.url version
    Header := [("Accept", "application/vnd.github+json"), ("X-GitHub-Api-Version", "2022-11-28")] }

/-- The function `fetchRelease`: the events it performs and what it returns, the
release or the error. Line 54 drops the error of `http.NewRequestWithContext`, which
fails only on a URL that does not parse; `main` passes versions made of digits and
dots, so the request is taken as always built. -/
def fetchRelease (w : World) (version : String) : List Event × Except String Release :=
  let req := fetchRelease.req version
  match w.Do req with
  | .error err => ([.httpDo req], .error err)
  | .ok resp =>
    if resp.StatusCode ≠ 200 then
      match w.DecodeError resp.Body with
      | .error err => ([.httpDo req, .bodyClose], .error err)
      | .ok v => ([.httpDo req, .bodyClose], .error v.Message)
    else
      match w.DecodeRelease resp.Body with
      | .error err => ([.httpDo req, .bodyClose], .error err)
      | .ok v => ([.httpDo req, .bodyClose], .ok v)

/-! ## `main` (main.go, lines 81-118) -/

def templatePath : String := "./templates/neokikoeru.json.tmpl"
def bucketPath : String := "./bucket/neokikoeru.json"

/-- The function `main`. Deferred calls (`cancel`, `bucketFile.Close`) run, last
deferred first, when `main` returns or panics; they do not run when the process
ends inside `log.Fatal`. -/
def main (w : World) : Run :=
  let version := w.Getenv _versionEnvKey
  if version = "" || !_versionRegex.MatchString version then
    { events :=
        [.getenv _versionEnvKey,
         .logFatal (Sprintf "$%s is not a valid version. Please provide a valid semver"
           [_versionEnvKey])]
      exit := 1 }
  else
    match fetchRelease w version with
    | (evs, .error err) =>
      { events := .getenv _versionEnvKey :: evs ++ [.logFatal err], exit := 1 }
    | (evs, .ok release) =>
      let bucket := mapAssets version release.Assets
      match w.ParseFiles templatePath with
      | .error err =>
        { events := .getenv _versionEnvKey :: evs ++
            [.parseFiles templatePath, .panicked err, .cancel]
          exit := 2 }
      | .ok _ =>
        match w.OpenFile bucketPath with
        | .error err =>
          { events := .getenv _versionEnvKey :: evs ++
              [.parseFiles templatePath, .openFile bucketPath, .logFatal err]
            exit := 1 }
        | .ok _ =>
          match w.Execute bucket with
          | .error err =>
            { events := .getenv _versionEnvKey :: evs ++
                [.parseFiles templatePath, .openFile bucketPath, .execute bucket,
                 .logFatal err]
              exit := 1 }
          | .ok _ =>
            { events := .getenv _versionEnvKey :: evs ++
                [.parseFiles templatePath, .openFile bucketPath, .execute bucket,
                 .fileClose, .cancel]
              exit := 0 }

/-! ## Concrete worlds -/

/-- A world in which every step succeeds: version `1.2.3`, a 200 response whose
body decodes to a release with both assets. -/
def worldSuccess : World :=
  { Getenv := fun key => if key = _versionEnvKey then "1.2.3" else ""
    Do := fun _ => .ok ⟨200, "release 1.2.3"⟩
    DecodeError := fun _ => .error "unexpected body"
    DecodeRelease := fun body =>
      if body = "release 1.2.3" then
        .ok ⟨"v1.2.3",
          [⟨_assetNameWindowsAmd64, "sha256:aa", "https://h/amd"⟩,
           ⟨_assetNameWindowsArm64, "sha256:bb", "https://h/arm"⟩]⟩
      else .error "unexpected body"
    ParseFiles := fun _ => .ok ()
    OpenFile := fun _ => .ok ()
    Execute := fun _ => .ok () }

/-- The world `worldSuccess`, except that executing the template fails. -/
def worldExecuteFails : World :=
  { worldSuccess with Execute := fun _ => .error "template: cannot evaluate field" }

/-- A world whose API answers 404 with the body `\x7b"message":"Not Found"\x7d`. -/
def worldNotFound : World :=
  { worldSuccess with
    Do := fun _ => .ok ⟨404, "\x7b\"message\":\"Not Found\"\x7d"⟩
    DecodeError := fun body =>
      if body = "\x7b\"message\":\"Not Found\"\x7d" then .ok ⟨"Not Found"⟩
      else .error "unexpected body" }

/-- A world whose environment holds a version with a leading `v`. -/
def worldBadVersion : World :=
  { worldSuccess with Getenv := fun _ => "v1.2.3" }

/-! ## The version shape, following the specification's words -/

/-- The ASCII digits `0` to `9`. -/
def asciiDigits : List Char := ['0', '1', '2', '3', '4', '5', '6', '7', '8', '9']

/-- A non-empty run of ASCII digits. -/
def DigitRun (l : List Char) : Prop := l ≠ [] ∧ ∀ x ∈ l, x ∈ asciiDigits

/-- Following the specification's words: exactly three non-empty runs of ASCII
digits, separated by single `.` characters, with nothing before or after. -/
def SemverShape (v : String) : Prop :=
  ∃ a b c : List Char, DigitRun a ∧ DigitRun b ∧ DigitRun c ∧
    v.data = a ++ '.' :: (b ++ '.' :: c)

/-! ## Lemmas on strings -/

theorem hasPrefix_iff (s pfx : String) :
    HasPrefix s pfx = true ↔ ∃ t : String, s = pfx ++ t := by
  unfold HasPrefix
  simp only [Bool.and_eq_true, decide_eq_true_eq]
  constructor
  · rintro ⟨_, h⟩
    refine ⟨String.mk (s.data.drop pfx.data.length), ?_⟩
    apply String.ext
    rw [String.data_append]
    show s.data = pfx.data ++ s.data.drop pfx.data.length
    rw [← h, List.length_take, Nat.min_eq_left (by assumption), List.take_append_drop]
  · rintro ⟨t, rfl⟩
    simp [String.data_append]

theorem trimPrefix_append (pfx t : String) : TrimPrefix (pfx ++ t) pfx = t := by
  have h : HasPrefix (pfx ++ t) pfx = true := (hasPrefix_iff _ _).2 ⟨t, rfl⟩
  unfold TrimPrefix
  rw [if_pos h]
  apply String.ext
  simp [String.data_append]

theorem trimPrefix_of_not_hasPrefix (s pfx : String) (h : ¬ ∃ t : String, s = pfx ++ t) :
    TrimPrefix s pfx = s := by
  unfold TrimPrefix
  rw [if_neg]
  rwa [hasPrefix_iff]

theorem string_append_left_cancel (p a b : String) (h : p ++ a = p ++ b) : a = b := by
  apply String.ext
  have := congrArg String.data h
  simpa [String.data_append] using this

/-! ## Lemmas on the asset mapper -/

theorem amd64_ne_arm64 : _assetNameWindowsAmd64 ≠ _assetNameWindowsArm64 := by decide

theorem mapStep_amd64 (b : Bucket) (x : Asset) (h : x.Name = _assetNameWindowsAmd64) :
    mapStep b x = { b with
      DownloadUrlWindowsAmd64 := x.BrowserDownloadUrl
      Sha256WindowsAmd64 := TrimPrefix x.Digest "sha256:" } := by
  unfold mapStep
  rw [if_pos h]

theorem mapStep_arm64 (b : Bucket) (x : Asset) (h : x.Name = _assetNameWindowsArm64) :
    mapStep b x = { b with
      DownloadUrlWindowsArm64 := x.BrowserDownloadUrl
      Sha256WindowsArm64 := TrimPrefix x.Digest "sha256:" } := by
  have h1 : x.Name ≠ _assetNameWindowsAmd64 := by
    rw [h]; exact fun e => amd64_ne_arm64 e.symm
  unfold mapStep
  rw [if_neg h1, if_pos h]

theorem mapStep_other (b : Bucket) (x : Asset) (h1 : x.Name ≠ _assetNameWindowsAmd64)
    (h2 : x.Name ≠ _assetNameWindowsArm64) : mapStep b x = b := by
  unfold mapStep
  rw [if_neg h1, if_neg h2]

theorem mapStep_version (b : Bucket) (x : Asset) : (mapStep b x).Version = b.Version := by
  unfold mapStep
  split_ifs <;> rfl

theorem foldl_mapStep_version (l : List Asset) (b : Bucket) :
    (l.foldl mapStep b).Version = b.Version := by
  induction l generalizing b with
  | nil => rfl
  | cons x xs ih => rw [List.foldl_cons, ih, mapStep_version]

theorem foldl_mapStep_keep_amd64 (l : List Asset) (b : Bucket)
    (h : ∀ y ∈ l, y.Name ≠ _assetNameWindowsAmd64) :
    (l.foldl mapStep b).DownloadUrlWindowsAmd64 = b.DownloadUrlWindowsAmd64 ∧
    (l.foldl mapStep b).Sha256WindowsAmd64 = b.Sha256WindowsAmd64 := by
  induction l generalizing b with
  | nil => exact ⟨rfl, rfl⟩
  | cons x xs ih =>
    have hx : x.Name ≠ _assetNameWindowsAmd64 := h x (List.mem_cons_self _ _)
    have hxs := ih (mapStep b x) (fun y hy => h y (List.mem_cons_of_mem _ hy))
    rw [List.foldl_cons, hxs.1, hxs.2]
    unfold mapStep
    rw [if_neg hx]
    split_ifs <;> exact ⟨rfl, rfl⟩

theorem foldl_mapStep_keep_arm64 (l : List Asset) (b : Bucket)
    (h : ∀ y ∈ l, y.Name ≠ _assetNameWindowsArm64) :
    (l.foldl mapStep b).DownloadUrlWindowsArm64 = b.DownloadUrlWindowsArm64 ∧
    (l.foldl mapStep b).Sha256WindowsArm64 = b.Sha256WindowsArm64 := by
  induction l generalizing b with
  | nil => exact ⟨rfl, rfl⟩
  | cons x xs ih =>
    have hx : x.Name ≠ _assetNameWindowsArm64 := h x (List.mem_cons_self _ _)
    have hxs := ih (mapStep b x) (fun y hy => h y (List.mem_cons_of_mem _ hy))
    rw [List.foldl_cons, hxs.1, hxs.2]
    unfold mapStep
    rw [if_neg hx]
    split_ifs <;> exact ⟨rfl, rfl⟩

/-- The last asset named `neokikoeru-windows-amd64.zip` decides the amd64 fields. -/
theorem mapAssets_last_amd64 (version : String) (pre post : List Asset) (x : Asset)
    (hx : x.Name = _assetNameWindowsAmd64)
    (hpost : ∀ y ∈ post, y.Name ≠ _assetNameWindowsAmd64) :
    (mapAssets version (pre ++ x :: post)).DownloadUrlWindowsAmd64 = x.BrowserDownloadUrl ∧
    (mapAssets version (pre ++ x :: post)).Sha256WindowsAmd64 =
      TrimPrefix x.Digest "sha256:" := by
  unfold mapAssets
  rw [List.foldl_append, List.foldl_cons]
  generalize List.foldl mapStep _ pre = b
  have h := foldl_mapStep_keep_amd64 post (mapStep b x) hpost
  rw [h.1, h.2, mapStep_amd64 _ _ hx]
  exact ⟨rfl, rfl⟩

/-- The last asset named `neokikoeru-windows-arm64.zip` decides the arm64 fields. -/
theorem mapAssets_last_arm64 (version : String) (pre post : List Asset) (x : Asset)
    (hx : x.Name = _assetNameWindowsArm64)
    (hpost : ∀ y ∈ post, y.Name ≠ _assetNameWindowsArm64) :
    (mapAssets version (pre ++ x :: post)).DownloadUrlWindowsArm64 = x.BrowserDownloadUrl ∧
    (mapAssets version (pre ++ x :: post)).Sha256WindowsArm64 =
      TrimPrefix x.Digest "sha256:" := by
  unfold mapAssets
  rw [List.foldl_append, List.foldl_cons]
  generalize List.foldl mapStep _ pre = b
  have h := foldl_mapStep_keep_arm64 post (mapStep b x) hpost
  rw [h.1, h.2, mapStep_arm64 _ _ hx]
  exact ⟨rfl, rfl⟩

/-- An asset that occurs in a list in which its name occurs once is the last
one of that name. -/
theorem split_of_countP_one (p : Asset → Bool) (l : List Asset) (x : Asset)
    (hmem : x ∈ l) (hp : p x = true) (hc : l.countP p = 1) :
    ∃ pre post, l = pre ++ x :: post ∧ ∀ y ∈ post, p y = false := by
  obtain ⟨pre, post, rfl⟩ := List.append_of_mem hmem
  refine ⟨pre, post, rfl, ?_⟩
  rw [List.countP_append, List.countP_cons_of_pos _ _ hp] at hc
  have h0 : post.countP p = 0 := by omega
  intro y hy
  have := List.countP_eq_zero.1 h0 y hy
  simpa using this

theorem foldl_mapStep_filter (l : List Asset) (b : Bucket) :
    (l.filter fun a =>
        decide (a.Name = _assetNameWindowsAmd64) || decide (a.Name = _assetNameWindowsArm64)).foldl
      mapStep b = l.foldl mapStep b := by
  induction l generalizing b with
  | nil => rfl
  | cons x xs ih =>
    by_cases h1 : x.Name = _assetNameWindowsAmd64
    · rw [List.filter_cons_of_pos (by simp [h1]), List.foldl_cons, List.foldl_cons, ih]
    · by_cases h2 : x.Name = _assetNameWindowsArm64
      · rw [List.filter_cons_of_pos (by simp [h2]), List.foldl_cons, List.foldl_cons, ih]
      · rw [List.filter_cons_of_neg (by simp [h1, h2]), List.foldl_cons,
          mapStep_other _ _ h1 h2, ih]

/-! ## Lemmas on the matcher -/

theorem digit_iff (x : Char) :
    ('0'.toNat ≤ x.toNat ∧ x.toNat ≤ '9'.toNat) ↔ x ∈ asciiDigits := by
  constructor
  · rintro ⟨h1, h2⟩
    have h : x = Char.ofNat x.toNat := (Char.ofNat_toNat x).symm
    have e0 : '0'.toNat = 48 := by decide
    have e9 : '9'.toNat = 57 := by decide
    rw [e0] at h1
    rw [e9] at h2
    generalize x.toNat = n at h h1 h2
    subst h
    interval_cases n <;> decide
  · intro h
    simp only [asciiDigits, List.mem_cons, List.mem_singleton, List.not_mem_nil, or_false] at h
    rcases h with h | h | h | h | h | h | h | h | h | h <;> subst h <;> decide

theorem mem_ends_beginText (p q : Pos) : q ∈ Regex.beginText.ends p ↔ p.1 = 0 ∧ q = p := by
  unfold Regex.ends
  split_ifs with h <;> simp [h]

theorem mem_ends_endText (p q : Pos) : q ∈ Regex.endText.ends p ↔ p.2 = [] ∧ q = p := by
  unfold Regex.ends
  split_ifs with h <;> simp [h]

theorem mem_ends_lit (c : Char) (p q : Pos) :
    q ∈ (Regex.lit c).ends p ↔ p.2 = c :: q.2 ∧ q.1 = p.1 + 1 := by
  obtain ⟨i, l⟩ := p
  obtain ⟨j, m⟩ := q
  unfold Regex.ends
  cases l with
  | nil => simp
  | cons x xs =>
    by_cases h : x = c
    · simp [h, eq_comm, and_comm]
    · simp [h]

theorem mem_ends_range (lo hi : Char) (p q : Pos) :
    q ∈ (Regex.range lo hi).ends p ↔
      ∃ x, (lo.toNat ≤ x.toNat ∧ x.toNat ≤ hi.toNat) ∧ p.2 = x :: q.2 ∧ q.1 = p.1 + 1 := by
  obtain ⟨i, l⟩ := p
  obtain ⟨j, m⟩ := q
  unfold Regex.ends
  cases l with
  | nil => simp
  | cons x xs =>
    by_cases h : lo.toNat ≤ x.toNat ∧ x.toNat ≤ hi.toNat
    · simp only [if_pos h, List.mem_singleton, Prod.mk.injEq]
      constructor
      · rintro ⟨rfl, rfl⟩
        exact ⟨x, h, rfl, rfl⟩
      · rintro ⟨y, _, h1, h2⟩
        exact ⟨h2, (List.cons.inj h1).2.symm⟩
    · simp only [if_neg h, List.not_mem_nil, false_iff]
      rintro ⟨y, hy, h1, _⟩
      exact h ((List.cons.inj h1).1 ▸ hy)

theorem mem_ends_cat (r s : Regex) (p q : Pos) :
    q ∈ (Regex.cat r s).ends p ↔ ∃ m, m ∈ r.ends p ∧ q ∈ s.ends m := by
  show q ∈ (r.ends p).flatMap s.ends ↔ _
  simp [List.mem_flatMap]

theorem mem_iterate_range (lo hi : Char) (fuel : Nat) (p q : Pos) :
    q ∈ iterate (Regex.range lo hi).ends fuel p ↔
      ∃ run : List Char, run ≠ [] ∧ run.length ≤ fuel ∧
        (∀ x ∈ run, lo.toNat ≤ x.toNat ∧ x.toNat ≤ hi.toNat) ∧
        p.2 = run ++ q.2 ∧ q.1 = p.1 + run.length := by
  induction fuel generalizing p with
  | zero =>
    simp only [iterate, List.not_mem_nil, false_iff]
    rintro ⟨run, hne, hlen, -⟩
    exact hne (List.length_eq_zero.1 (Nat.le_zero.1 hlen))
  | succ fuel ih =>
    unfold iterate
    simp only [List.mem_flatMap, mem_ends_range]
    constructor
    · rintro ⟨m, ⟨x, hD, hp, hm⟩, hq⟩
      have hlt : m.2.length < p.2.length := by rw [hp]; simp
      rw [if_pos hlt, List.mem_cons] at hq
      rcases hq with rfl | hq
      · exact ⟨[x], by simp, by simp, by simpa using hD, by simpa using hp, by simpa using hm⟩
      · obtain ⟨run, _, hlen, hall, hm2, hq1⟩ := (ih m).1 hq
        refine ⟨x :: run, by simp, by simpa using hlen, ?_, ?_, ?_⟩
        · intro y hy
          rcases List.mem_cons.1 hy with rfl | hy
          · exact hD
          · exact hall y hy
        · rw [hp, hm2]; rfl
        · rw [hq1, hm, List.length_cons]; omega
    · rintro ⟨run, hne, hlen, hall, hp, hq1⟩
      cases run with
      | nil => exact absurd rfl hne
      | cons x run =>
        refine ⟨(p.1 + 1, run ++ q.2), ⟨x, hall x (List.mem_cons_self _ _), hp, rfl⟩, ?_⟩
        have hlt : (run ++ q.2).length < p.2.length := by rw [hp]; simp
        rw [if_pos hlt, List.mem_cons]
        by_cases hr : run = []
        · left
          subst hr
          exact Prod.ext (by simpa using hq1) rfl
        · right
          refine (ih _).2 ⟨run, hr, by simpa using hlen, ?_, rfl, ?_⟩
          · exact fun y hy => hall y (List.mem_cons_of_mem _ hy)
          · rw [hq1, List.length_cons]; show _ = p.1 + 1 + run.length; omega

theorem mem_ends_plus_range (lo hi : Char) (p q : Pos) :
    q ∈ (Regex.plus (Regex.range lo hi)).ends p ↔
      ∃ run : List Char, run ≠ [] ∧
        (∀ x ∈ run, lo.toNat ≤ x.toNat ∧ x.toNat ≤ hi.toNat) ∧
        p.2 = run ++ q.2 ∧ q.1 = p.1 + run.length := by
  show q ∈ iterate (Regex.range lo hi).ends (p.2.length + 1) p ↔ _
  rw [mem_iterate_range]
  constructor
  · rintro ⟨run, hne, -, hall, hp, hq⟩
    exact ⟨run, hne, hall, hp, hq⟩
  · rintro ⟨run, hne, hall, hp, hq⟩
    refine ⟨run, hne, ?_, hall, hp, hq⟩
    rw [hp, List.length_append]
    omega

/-- A non-empty run of digits, as `[0-9]+` reads it. -/
theorem mem_ends_digits (p q : Pos) :
    q ∈ (Regex.plus (Regex.range '0' '9')).ends p ↔
      ∃ run : List Char, DigitRun run ∧ p.2 = run ++ q.2 ∧ q.1 = p.1 + run.length := by
  rw [mem_ends_plus_range]
  constructor
  · rintro ⟨run, hne, hall, h⟩
    exact ⟨run, ⟨hne, fun x hx => (digit_iff x).1 (hall x hx)⟩, h⟩
  · rintro ⟨run, ⟨hne, hall⟩, h⟩
    exact ⟨run, hne, fun x hx => (digit_iff x).2 (hall x hx), h⟩

theorem positions_fst_ge (i : Nat) (l : List Char) (p : Pos) (h : p ∈ positions i l) :
    i ≤ p.1 := by
  induction l generalizing i with
  | nil =>
    simp only [positions, List.mem_singleton] at h
    rw [h]
  | cons x xs ih =>
    simp only [positions, List.mem_cons] at h
    rcases h with rfl | h
    · exact Nat.le_refl _
    · exact Nat.le_of_succ_le (ih _ h)

theorem mem_positions_self (i : Nat) (l : List Char) : (i, l) ∈ positions i l := by
  cases l <;> simp [positions]

theorem eq_of_mem_positions (i : Nat) (l : List Char) (p : Pos) (h : p ∈ positions i l)
    (hi : p.1 = i) : p = (i, l) := by
  cases l with
  | nil => simpa [positions] using h
  | cons x xs =>
    simp only [positions, List.mem_cons] at h
    rcases h with rfl | h
    · rfl
    · have := positions_fst_ge _ _ _ h
      omega

/-- What `_versionRegex` matches, from a position on. -/
theorem ends_versionRegex_ne_nil (p : Pos) :
    _versionRegex.ends p ≠ [] ↔
      p.1 = 0 ∧ ∃ a b c : List Char, DigitRun a ∧ DigitRun b ∧ DigitRun c ∧
        p.2 = a ++ '.' :: (b ++ '.' :: c) := by
  have hmem : _versionRegex.ends p ≠ [] ↔ ∃ q, q ∈ _versionRegex.ends p :=
    ⟨List.exists_mem_of_ne_nil _, fun ⟨_, hq⟩ => List.ne_nil_of_mem hq⟩
  rw [hmem]
  unfold _versionRegex
  simp only [mem_ends_cat, mem_ends_beginText, mem_ends_lit, mem_ends_digits,
    mem_ends_endText]
  constructor
  · rintro ⟨q, m1, ⟨h0, rfl⟩, m2, ⟨a, ha, h1, -⟩, m3, ⟨h2, -⟩, m4, ⟨b, hb, h3, -⟩,
      m5, ⟨h4, -⟩, m6, ⟨c, hc, h5, -⟩, h6, -⟩
    refine ⟨h0, a, b, c, ha, hb, hc, ?_⟩
    rw [h1, h2, h3, h4, h5, h6, List.append_nil]
  · rintro ⟨h0, a, b, c, ha, hb, hc, hp⟩
    refine ⟨(p.1 + a.length + 1 + b.length + 1 + c.length, []), p, ⟨h0, rfl⟩,
      (p.1 + a.length, '.' :: (b ++ '.' :: c)), ⟨a, ha, hp, rfl⟩,
      (p.1 + a.length + 1, b ++ '.' :: c), ⟨rfl, rfl⟩,
      (p.1 + a.length + 1 + b.length, '.' :: c), ⟨b, hb, rfl, rfl⟩,
      (p.1 + a.length + 1 + b.length + 1, c), ⟨rfl, rfl⟩,
      (p.1 + a.length + 1 + b.length + 1 + c.length, []), ⟨c, hc, ?_, rfl⟩, rfl, rfl⟩
    simp

theorem matchString_versionRegex (s : String) :
    _versionRegex.MatchString s = true ↔ SemverShape s := by
  unfold Regex.MatchString SemverShape
  simp only [List.any_eq_true, Bool.not_eq_true', List.isEmpty_eq_false,
    ends_versionRegex_ne_nil]
  constructor
  · rintro ⟨p, hp, h0, a, b, c, ha, hb, hc, h⟩
    have := eq_of_mem_positions _ _ _ hp h0
    subst this
    exact ⟨a, b, c, ha, hb, hc, h⟩
  · rintro ⟨a, b, c, ha, hb, hc, h⟩
    exact ⟨(0, s.data), mem_positions_self _ _, rfl, a, b, c, ha, hb, hc, h⟩

theorem semverShape_ne_empty (s : String) (h : SemverShape s) : s ≠ "" := by
  rintro rfl
  obtain ⟨a, b, c, ha, -, -, h⟩ := h
  exact ha.1 (List.append_eq_nil.1 h.symm).1

/-- The test of line 83 lets a version pass exactly when it has the shape of
the specification. -/
theorem versionAccepted_iff (v : String) : versionAccepted v = true ↔ SemverShape v := by
  unfold versionAccepted
  rw [Bool.not_eq_true', Bool.or_eq_false_iff, decide_eq_false_iff_not,
    Bool.not_eq_false', matchString_versionRegex]
  exact ⟨fun h => h.2, fun h => ⟨semverShape_ne_empty v h, h⟩⟩


/-! ## Lemmas on `Sprintf` -/

theorem sprintf_go_cons_of_ne (c : Char) (rest : List Char) (args : List String)
    (h : c ≠ '%') : Sprintf.go (c :: rest) args = c :: Sprintf.go rest args := by
  cases rest with
  | nil => simp only [Sprintf.go, if_neg h]
  | cons d rest => simp only [Sprintf.go, if_neg h]

/-- A format made of text without a percent sign followed by one `%s`, applied to
one operand: the text, then the operand unchanged. -/
theorem sprintf_go_text_then_s (text : List Char) (a : String)
    (h : ∀ c ∈ text, c ≠ '%') : Sprintf.go (text ++ ['%', 's']) [a] = text ++ a.data := by
  induction text with
  | nil => simp [Sprintf.go]
  | cons c text ih =>
    rw [List.cons_append, sprintf_go_cons_of_ne _ _ _ (h c (List.mem_cons_self _ _)),
      ih (fun d hd => h d (List.mem_cons_of_mem _ hd)), List.cons_append]

theorem fetchRelease_url_eq (version : String) :
    fetchRelease.url version =
      "https://api.github.com/repos/vscodev/neokikoeru/releases/tags/v" ++ version := by
  unfold fetchRelease.url Sprintf
  apply String.ext
  rw [String.data_append]
  exact sprintf_go_text_then_s
    "https://api.github.com/repos/vscodev/neokikoeru/releases/tags/v".data version
    (by decide)

/-! ## Lemmas on `fetchRelease` and `main` -/

theorem fetchRelease_events (w : World) (version : String) :
    (fetchRelease w version).1 = [.httpDo (fetchRelease.req version)] ∨
    (fetchRelease w version).1 = [.httpDo (fetchRelease.req version), .bodyClose] := by
  unfold fetchRelease
  dsimp only
  split
  · exact Or.inl rfl
  · split_ifs <;> split <;> exact Or.inr rfl

theorem resolver_test_eq (version : String) :
    (decide (version = "") || !_versionRegex.MatchString version) =
      !versionAccepted version := by
  unfold versionAccepted
  rw [Bool.not_not]

theorem main_of_rejected (w : World) (h : versionAccepted (w.Getenv _versionEnvKey) = false) :
    main w =
      { events :=
          [.getenv _versionEnvKey,
           .logFatal "$NEOKIKOERU_VERSION is not a valid version. Please provide a valid semver"]
        exit := 1 } := by
  unfold main
  simp only [resolver_test_eq, h, Bool.not_false, if_true]
  rfl

theorem main_of_fetch_error (w : World) (evs : List Event) (err : String)
    (h : versionAccepted (w.Getenv _versionEnvKey) = true)
    (hf : fetchRelease w (w.Getenv _versionEnvKey) = (evs, .error err)) :
    main w = { events := .getenv _versionEnvKey :: evs ++ [.logFatal err], exit := 1 } := by
  unfold main
  simp only [resolver_test_eq, h, hf, Bool.not_true]
  rfl

/-- The steps of `main` after a successful fetch: lines 94-117. -/
theorem main_of_fetch_ok (w : World) (evs : List Event) (release : Release)
    (h : versionAccepted (w.Getenv _versionEnvKey) = true)
    (hf : fetchRelease w (w.Getenv _versionEnvKey) = (evs, .ok release)) :
    main w =
      match w.ParseFiles templatePath with
      | .error err =>
        { events := .getenv _versionEnvKey :: evs ++
            [.parseFiles templatePath, .panicked err, .cancel]
          exit := 2 }
      | .ok _ =>
        match w.OpenFile bucketPath with
        | .error err =>
          { events := .getenv _versionEnvKey :: evs ++
              [.parseFiles templatePath, .openFile bucketPath, .logFatal err]
            exit := 1 }
        | .ok _ =>
          match w.Execute (mapAssets (w.Getenv _versionEnvKey) release.Assets) with
          | .error err =>
            { events := .getenv _versionEnvKey :: evs ++
                [.parseFiles templatePath, .openFile bucketPath,
                 .execute (mapAssets (w.Getenv _versionEnvKey) release.Assets),
                 .logFatal err]
              exit := 1 }
          | .ok _ =>
            { events := .getenv _versionEnvKey :: evs ++
                [.parseFiles templatePath, .openFile bucketPath,
                 .execute (mapAssets (w.Getenv _versionEnvKey) release.Assets),
                 .fileClose, .cancel]
              exit := 0 } := by
  unfold main
  simp only [resolver_test_eq, h, hf, Bool.not_true]
  rfl

/-- After a successful fetch `main` goes on to the renderer: the next event is
the parsing of the template. -/
theorem main_reaches_renderer (w : World) (evs : List Event) (release : Release)
    (h : versionAccepted (w.Getenv _versionEnvKey) = true)
    (hf : fetchRelease w (w.Getenv _versionEnvKey) = (evs, .ok release)) :
    ∃ rest, (main w).events =
      .getenv _versionEnvKey :: evs ++ .parseFiles templatePath :: rest := by
  rw [main_of_fetch_ok w evs release h hf]
  split
  · exact ⟨_, rfl⟩
  · split
    · exact ⟨_, rfl⟩
    · split <;> exact ⟨_, rfl⟩

/-- Every run of `main` on an accepted version starts by reading the variable
and sending the request. -/
theorem main_of_accepted_events (w : World)
    (h : versionAccepted (w.Getenv _versionEnvKey) = true) :
    ∃ rest, (main w).events =
      .getenv _versionEnvKey ::
        .httpDo (fetchRelease.req (w.Getenv _versionEnvKey)) :: rest := by
  have hev := fetchRelease_events w (w.Getenv _versionEnvKey)
  cases hr : fetchRelease w (w.Getenv _versionEnvKey) with
  | mk evs res =>
    rw [hr] at hev
    cases res with
    | error err =>
      rw [main_of_fetch_error w evs err h hr]
      rcases hev with e | e <;> (simp only at e; subst e; exact ⟨_, rfl⟩)
    | ok release =>
      obtain ⟨rest, hm⟩ := main_reaches_renderer w evs release h hr
      rw [hm]
      rcases hev with e | e <;> (simp only at e; subst e; exact ⟨_, rfl⟩)

/-- The bucket handed to the template is the one the mapper built from the
validated version and the fetched assets. -/
theorem main_execute_bucket (w : World) (b : Bucket) (hb : Event.execute b ∈ (main w).events) :
    ∃ release, (fetchRelease w (w.Getenv _versionEnvKey)).2 = .ok release ∧
      b = mapAssets (w.Getenv _versionEnvKey) release.Assets := by
  cases h : versionAccepted (w.Getenv _versionEnvKey) with
  | false =>
    rw [main_of_rejected w h] at hb
    simp at hb
  | true =>
    have hev := fetchRelease_events w (w.Getenv _versionEnvKey)
    cases hr : fetchRelease w (w.Getenv _versionEnvKey) with
    | mk evs res =>
      rw [hr] at hev
      cases res with
      | error err =>
        rw [main_of_fetch_error w evs err h hr] at hb
        rcases hev with e | e <;> (simp only at e; subst e; simp at hb)
      | ok release =>
        refine ⟨release, rfl, ?_⟩
        rw [main_of_fetch_ok w evs release h hr] at hb
        split at hb
        · rcases hev with e | e <;> (simp only at e; subst e; simp at hb)
        · split at hb
          · rcases hev with e | e <;> (simp only at e; subst e; simp at hb)
          · split at hb <;>
              rcases hev with e | e <;> (simp only at e; subst e; simpa using hb)

/-! ## The asset mapper: claims C2, C3, C4, C7, C9, C10 -/

/-- C2: when the asset list holds an asset named `neokikoeru-windows-amd64.zip`
with digest `"sha256:" ++ a` and an asset named `neokikoeru-windows-arm64.zip` with
digest `"sha256:" ++ b`, each name occurring once and any other assets anywhere,
the bucket has `Sha256WindowsAmd64 = a`, `Sha256WindowsArm64 = b` and the two
download URLs equal to the assets' `browser_download_url`, for every `a` and `b`. -/
theorem mapAssets_both_assets (version a b : String) (assets : List Asset) (x y : Asset)
    (hx : x ∈ assets) (hy : y ∈ assets)
    (hxn : x.Name = _assetNameWindowsAmd64) (hyn : y.Name = _assetNameWindowsArm64)
    (hxd : x.Digest = "sha256:" ++ a) (hyd : y.Digest = "sha256:" ++ b)
    (hx1 : assets.countP (fun z => decide (z.Name = _assetNameWindowsAmd64)) = 1)
    (hy1 : assets.countP (fun z => decide (z.Name = _assetNameWindowsArm64)) = 1) :
    (mapAssets version assets).Sha256WindowsAmd64 = a ∧
    (mapAssets version assets).Sha256WindowsArm64 = b ∧
    (mapAssets version assets).DownloadUrlWindowsAmd64 = x.BrowserDownloadUrl ∧
    (mapAssets version assets).DownloadUrlWindowsArm64 = y.BrowserDownloadUrl := by
  obtain ⟨pre, post, e, hpost⟩ :=
    split_of_countP_one _ assets x hx (by simpa using hxn) hx1
  obtain ⟨pre', post', e', hpost'⟩ :=
    split_of_countP_one _ assets y hy (by simpa using hyn) hy1
  have h1 := mapAssets_last_amd64 version pre post x hxn
    (fun z hz => by simpa using hpost z hz)
  have h2 := mapAssets_last_arm64 version pre' post' y hyn
    (fun z hz => by simpa using hpost' z hz)
  rw [← e, hxd, trimPrefix_append] at h1
  rw [← e', hyd, trimPrefix_append] at h2
  exact ⟨h1.2, h2.2, h1.1, h2.1⟩

/-- C2 at a release with three assets, the amd64 digest itself starting with
`sha256:` after the first prefix. -/
theorem mapAssets_both_assets_witness :
    (mapAssets "1.2.3"
        [⟨_assetNameWindowsArm64, "sha256:bb", "https://h/arm"⟩,
         ⟨"notes.txt", "sha256:cc", "https://h/notes"⟩,
         ⟨_assetNameWindowsAmd64, "sha256:sha256:aa", "https://h/amd"⟩]).Sha256WindowsAmd64
        = "sha256:aa" ∧
    (mapAssets "1.2.3"
        [⟨_assetNameWindowsArm64, "sha256:bb", "https://h/arm"⟩,
         ⟨"notes.txt", "sha256:cc", "https://h/notes"⟩,
         ⟨_assetNameWindowsAmd64, "sha256:sha256:aa", "https://h/amd"⟩]).Sha256WindowsArm64
        = "bb" ∧
    (mapAssets "1.2.3"
        [⟨_assetNameWindowsArm64, "sha256:bb", "https://h/arm"⟩,
         ⟨"notes.txt", "sha256:cc", "https://h/notes"⟩,
         ⟨_assetNameWindowsAmd64, "sha256:sha256:aa", "https://h/amd"⟩]).DownloadUrlWindowsAmd64
        = "https://h/amd" ∧
    (mapAssets "1.2.3"
        [⟨_assetNameWindowsArm64, "sha256:bb", "https://h/arm"⟩,
         ⟨"notes.txt", "sha256:cc", "https://h/notes"⟩,
         ⟨_assetNameWindowsAmd64, "sha256:sha256:aa", "https://h/amd"⟩]).DownloadUrlWindowsArm64
        = "https://h/arm" :=
  mapAssets_both_assets "1.2.3" "sha256:aa" "bb" _
    ⟨_assetNameWindowsAmd64, "sha256:sha256:aa", "https://h/amd"⟩
    ⟨_assetNameWindowsArm64, "sha256:bb", "https://h/arm"⟩
    (by decide) (by decide) rfl rfl (by decide) (by decide) (by decide) (by decide)

/-- C3: for every version and every asset list with no asset named
`neokikoeru-windows-amd64.zip` and none named `neokikoeru-windows-arm64.zip` (the
empty list included), the four platform fields of the bucket are the empty string;
and the mapping stage raises no error: a run of `main` that fetched a release with
these assets goes on from the fetch to the renderer. -/
theorem mapAssets_no_match (version : String) (assets : List Asset)
    (h1 : ∀ x ∈ assets, x.Name ≠ _assetNameWindowsAmd64)
    (h2 : ∀ x ∈ assets, x.Name ≠ _assetNameWindowsArm64) :
    ((mapAssets version assets).DownloadUrlWindowsAmd64 = "" ∧
      (mapAssets version assets).Sha256WindowsAmd64 = "" ∧
      (mapAssets version assets).DownloadUrlWindowsArm64 = "" ∧
      (mapAssets version assets).Sha256WindowsArm64 = "") ∧
    ∀ (w : World) (evs : List Event) (name : String),
      versionAccepted (w.Getenv _versionEnvKey) = true →
      fetchRelease w (w.Getenv _versionEnvKey) = (evs, .ok ⟨name, assets⟩) →
      ∃ rest, (main w).events =
        .getenv _versionEnvKey :: evs ++ .parseFiles templatePath :: rest := by
  have ha := foldl_mapStep_keep_amd64 assets
    { Version := version, DownloadUrlWindowsAmd64 := "", Sha256WindowsAmd64 := "",
      DownloadUrlWindowsArm64 := "", Sha256WindowsArm64 := "" } h1
  have hb := foldl_mapStep_keep_arm64 assets
    { Version := version, DownloadUrlWindowsAmd64 := "", Sha256WindowsAmd64 := "",
      DownloadUrlWindowsArm64 := "", Sha256WindowsArm64 := "" } h2
  exact ⟨⟨ha.1, ha.2, hb.1, hb.2⟩,
    fun w evs name h hf => main_reaches_renderer w evs ⟨name, assets⟩ h hf⟩

/-- C3 at a release whose two assets have other names. -/
theorem mapAssets_no_match_witness :
    (mapAssets "1.2.3"
        [⟨"neokikoeru-linux-amd64.tar.gz", "sha256:aa", "https://h/linux"⟩,
         ⟨"checksums.txt", "sha256:bb", "https://h/sums"⟩]).DownloadUrlWindowsAmd64 = "" ∧
    (mapAssets "1.2.3"
        [⟨"neokikoeru-linux-amd64.tar.gz", "sha256:aa", "https://h/linux"⟩,
         ⟨"checksums.txt", "sha256:bb", "https://h/sums"⟩]).Sha256WindowsAmd64 = "" ∧
    (mapAssets "1.2.3"
        [⟨"neokikoeru-linux-amd64.tar.gz", "sha256:aa", "https://h/linux"⟩,
         ⟨"checksums.txt", "sha256:bb", "https://h/sums"⟩]).DownloadUrlWindowsArm64 = "" ∧
    (mapAssets "1.2.3"
        [⟨"neokikoeru-linux-amd64.tar.gz", "sha256:aa", "https://h/linux"⟩,
         ⟨"checksums.txt", "sha256:bb", "https://h/sums"⟩]).Sha256WindowsArm64 = "" :=
  (mapAssets_no_match "1.2.3"
    [⟨"neokikoeru-linux-amd64.tar.gz", "sha256:aa", "https://h/linux"⟩,
     ⟨"checksums.txt", "sha256:bb", "https://h/sums"⟩] (by decide) (by decide)).1

/-- C4: for every version `v` and every asset list, whatever its names, digests
and URLs, the bucket built by the mapping loop has `Version = v`; no iteration of
the loop changes the field, and the bucket `main` hands to the template carries
the version read from the environment. -/
theorem mapAssets_version_invariant (v : String) (assets : List Asset) :
    (mapAssets v assets).Version = v ∧
    (∀ (b : Bucket) (x : Asset), (mapStep b x).Version = b.Version) ∧
    (∀ (w : World) (b : Bucket), Event.execute b ∈ (main w).events →
      b.Version = w.Getenv _versionEnvKey) := by
  refine ⟨foldl_mapStep_version _ _, mapStep_version, ?_⟩
  intro w b hb
  obtain ⟨release, -, rfl⟩ := main_execute_bucket w b hb
  exact foldl_mapStep_version _ _

/-- C7: when a fixed name occurs in the asset list, also more than once, the
download URL and the checksum of that platform come from the last asset of that
name (its URL unchanged, its digest without a leading `sha256:`), whatever stands
before it, also when its URL or digest is empty. -/
theorem mapAssets_last_occurrence_wins (version : String) (pre post : List Asset)
    (x : Asset) :
    (x.Name = _assetNameWindowsAmd64 →
      (∀ y ∈ post, y.Name ≠ _assetNameWindowsAmd64) →
      (mapAssets version (pre ++ x :: post)).DownloadUrlWindowsAmd64 =
          x.BrowserDownloadUrl ∧
        (mapAssets version (pre ++ x :: post)).Sha256WindowsAmd64 =
          TrimPrefix x.Digest "sha256:" ∧
        (mapAssets version (pre ++ x :: post)).DownloadUrlWindowsAmd64 =
          (mapAssets version (x :: post)).DownloadUrlWindowsAmd64 ∧
        (mapAssets version (pre ++ x :: post)).Sha256WindowsAmd64 =
          (mapAssets version (x :: post)).Sha256WindowsAmd64) ∧
    (x.Name = _assetNameWindowsArm64 →
      (∀ y ∈ post, y.Name ≠ _assetNameWindowsArm64) →
      (mapAssets version (pre ++ x :: post)).DownloadUrlWindowsArm64 =
          x.BrowserDownloadUrl ∧
        (mapAssets version (pre ++ x :: post)).Sha256WindowsArm64 =
          TrimPrefix x.Digest "sha256:" ∧
        (mapAssets version (pre ++ x :: post)).DownloadUrlWindowsArm64 =
          (mapAssets version (x :: post)).DownloadUrlWindowsArm64 ∧
        (mapAssets version (pre ++ x :: post)).Sha256WindowsArm64 =
          (mapAssets version (x :: post)).Sha256WindowsArm64) := by
  constructor
  · intro hx hpost
    have h := mapAssets_last_amd64 version pre post x hx hpost
    have h0 := mapAssets_last_amd64 version [] post x hx hpost
    rw [List.nil_append] at h0
    exact ⟨h.1, h.2, h.1.trans h0.1.symm, h.2.trans h0.2.symm⟩
  · intro hx hpost
    have h := mapAssets_last_arm64 version pre post x hx hpost
    have h0 := mapAssets_last_arm64 version [] post x hx hpost
    rw [List.nil_append] at h0
    exact ⟨h.1, h.2, h.1.trans h0.1.symm, h.2.trans h0.2.symm⟩

/-- C7 at a list that names the amd64 asset twice, the last time with an empty
URL and an empty digest. -/
theorem mapAssets_last_occurrence_wins_witness :
    (mapAssets "1.2.3"
        [⟨_assetNameWindowsAmd64, "sha256:aa", "https://h/first"⟩,
         ⟨_assetNameWindowsAmd64, "", ""⟩,
         ⟨"notes.txt", "sha256:cc", "https://h/notes"⟩]).DownloadUrlWindowsAmd64 = "" ∧
    (mapAssets "1.2.3"
        [⟨_assetNameWindowsAmd64, "sha256:aa", "https://h/first"⟩,
         ⟨_assetNameWindowsAmd64, "", ""⟩,
         ⟨"notes.txt", "sha256:cc", "https://h/notes"⟩]).Sha256WindowsAmd64 =
      TrimPrefix "" "sha256:" :=
  have h := (mapAssets_last_occurrence_wins "1.2.3"
    [⟨_assetNameWindowsAmd64, "sha256:aa", "https://h/first"⟩]
    [⟨"notes.txt", "sha256:cc", "https://h/notes"⟩]
    ⟨_assetNameWindowsAmd64, "", ""⟩).1 rfl (by decide)
  ⟨h.1, h.2.1⟩

/-- C9: let `x` be the asset whose match is stored (the last of its name), `d` its
digest and `c` the checksum in the bucket. If `d` starts with the literal `sha256:`
then `d = "sha256:" ++ c`, so exactly one leading occurrence is removed
(`sha256:sha256:x` yields `sha256:x`); otherwise `c = d`. The comparison is
case-sensitive (`SHA256:x` is copied unchanged), and the mapper is a total
function: no digest makes it fail. -/
theorem stored_checksum_trims_one_sha256 (version : String) (pre post : List Asset)
    (x : Asset) :
    (x.Name = _assetNameWindowsAmd64 →
      (∀ y ∈ post, y.Name ≠ _assetNameWindowsAmd64) →
      ((∃ t : String, x.Digest = "sha256:" ++ t) →
        x.Digest = "sha256:" ++ (mapAssets version (pre ++ x :: post)).Sha256WindowsAmd64) ∧
      ((¬ ∃ t : String, x.Digest = "sha256:" ++ t) →
        (mapAssets version (pre ++ x :: post)).Sha256WindowsAmd64 = x.Digest)) ∧
    (x.Name = _assetNameWindowsArm64 →
      (∀ y ∈ post, y.Name ≠ _assetNameWindowsArm64) →
      ((∃ t : String, x.Digest = "sha256:" ++ t) →
        x.Digest = "sha256:" ++ (mapAssets version (pre ++ x :: post)).Sha256WindowsArm64) ∧
      ((¬ ∃ t : String, x.Digest = "sha256:" ++ t) →
        (mapAssets version (pre ++ x :: post)).Sha256WindowsArm64 = x.Digest)) ∧
    (∀ u : String,
      (mapAssets version (pre ++ ⟨_assetNameWindowsAmd64, "sha256:sha256:x", u⟩ :: [])
        ).Sha256WindowsAmd64 = "sha256:x" ∧
      (mapAssets version (pre ++ ⟨_assetNameWindowsArm64, "sha256:sha256:x", u⟩ :: [])
        ).Sha256WindowsArm64 = "sha256:x" ∧
      (mapAssets version (pre ++ ⟨_assetNameWindowsAmd64, "SHA256:x", u⟩ :: [])
        ).Sha256WindowsAmd64 = "SHA256:x" ∧
      (mapAssets version (pre ++ ⟨_assetNameWindowsArm64, "SHA256:x", u⟩ :: [])
        ).Sha256WindowsArm64 = "SHA256:x") := by
  refine ⟨?_, ?_, ?_⟩
  · intro hx hpost
    rw [(mapAssets_last_amd64 version pre post x hx hpost).2]
    constructor
    · rintro ⟨t, ht⟩
      rw [ht, trimPrefix_append]
    · exact trimPrefix_of_not_hasPrefix _ _
  · intro hx hpost
    rw [(mapAssets_last_arm64 version pre post x hx hpost).2]
    constructor
    · rintro ⟨t, ht⟩
      rw [ht, trimPrefix_append]
    · exact trimPrefix_of_not_hasPrefix _ _
  · intro u
    refine ⟨?_, ?_, ?_, ?_⟩
    · rw [(mapAssets_last_amd64 version pre [] _ rfl (by simp)).2]
      exact (by decide : TrimPrefix "sha256:sha256:x" "sha256:" = "sha256:x")
    · rw [(mapAssets_last_arm64 version pre [] _ rfl (by simp)).2]
      exact (by decide : TrimPrefix "sha256:sha256:x" "sha256:" = "sha256:x")
    · rw [(mapAssets_last_amd64 version pre [] _ rfl (by simp)).2]
      exact (by decide : TrimPrefix "SHA256:x" "sha256:" = "SHA256:x")
    · rw [(mapAssets_last_arm64 version pre [] _ rfl (by simp)).2]
      exact (by decide : TrimPrefix "SHA256:x" "sha256:" = "SHA256:x")

/-- C9 at an amd64 asset whose digest is `sha256:abc`, after an earlier asset of
the same name. -/
theorem stored_checksum_trims_one_sha256_witness :
    ("sha256:abc" : String) = "sha256:" ++
      (mapAssets "1.2.3"
        ([⟨_assetNameWindowsAmd64, "sha256:old", "https://h/old"⟩] ++
          ⟨_assetNameWindowsAmd64, "sha256:abc", "https://h/amd"⟩ ::
          [⟨_assetNameWindowsArm64, "def", "https://h/arm"⟩])).Sha256WindowsAmd64 :=
  ((stored_checksum_trims_one_sha256 "1.2.3"
    [⟨_assetNameWindowsAmd64, "sha256:old", "https://h/old"⟩]
    [⟨_assetNameWindowsArm64, "def", "https://h/arm"⟩]
    ⟨_assetNameWindowsAmd64, "sha256:abc", "https://h/amd"⟩).1 rfl (by decide)).1
    ⟨"abc", by decide⟩

/-- C10: assets matching neither fixed name are ignored: for every version and
every asset list, the bucket built from the list equals the bucket built from the
list without the assets named neither `neokikoeru-windows-amd64.zip` nor
`neokikoeru-windows-arm64.zip`. Matching is exact: a name that differs in case,
has surrounding whitespace, or a prefix or suffix, does not match. -/
theorem mapAssets_ignores_other_assets (version : String) (assets : List Asset) :
    mapAssets version assets =
      mapAssets version (assets.filter fun a =>
        decide (a.Name = _assetNameWindowsAmd64) ||
          decide (a.Name = _assetNameWindowsArm64)) ∧
    (∀ (b : Bucket) (x : Asset),
      x.Name ≠ _assetNameWindowsAmd64 → x.Name ≠ _assetNameWindowsArm64 →
        mapStep b x = b) ∧
    (∀ (b : Bucket) (x : Asset),
      x.Name ∈ ["Neokikoeru-Windows-Amd64.zip", "NEOKIKOERU-WINDOWS-ARM64.ZIP",
        " neokikoeru-windows-amd64.zip", "neokikoeru-windows-arm64.zip ",
        "neokikoeru-windows-amd64.zip\n", "neokikoeru-windows-amd64.zip.sha256",
        "neokikoeru-windows-arm64.zip.sha256", "v1.2.3-neokikoeru-windows-amd64.zip",
        "neokikoeru-windows-amd64", ""] →
      mapStep b x = b) := by
  refine ⟨?_, mapStep_other, ?_⟩
  · unfold mapAssets
    rw [foldl_mapStep_filter]
  · intro b x hx
    have h : x.Name ≠ _assetNameWindowsAmd64 ∧ x.Name ≠ _assetNameWindowsArm64 := by
      simp only [List.mem_cons, List.mem_singleton, List.not_mem_nil, or_false] at hx
      rcases hx with h | h | h | h | h | h | h | h | h | h <;> rw [h] <;> decide
    exact mapStep_other b x h.1 h.2

/-- C10 at a list with one matching asset between two others: the bucket is the
one built from the matching asset alone. -/
theorem mapAssets_ignores_other_assets_witness :
    mapAssets "1.2.3"
        [⟨"neokikoeru-windows-amd64.zip.sha256", "sha256:aa", "https://h/sum"⟩,
         ⟨_assetNameWindowsArm64, "sha256:bb", "https://h/arm"⟩,
         ⟨"Neokikoeru-Windows-Amd64.zip", "sha256:cc", "https://h/case"⟩] =
      mapAssets "1.2.3" [⟨_assetNameWindowsArm64, "sha256:bb", "https://h/arm"⟩] :=
  (mapAssets_ignores_other_assets "1.2.3"
    [⟨"neokikoeru-windows-amd64.zip.sha256", "sha256:aa", "https://h/sum"⟩,
     ⟨_assetNameWindowsArm64, "sha256:bb", "https://h/arm"⟩,
     ⟨"Neokikoeru-Windows-Amd64.zip", "sha256:cc", "https://h/case"⟩]).1.trans
    (by decide)

/-! ## The release fetcher: claims C5, C6 -/

/-- C6: the request URL built by `fetchRelease` is the fixed text
`https://api.github.com/repos/vscodev/neokikoeru/releases/tags/v` followed by the
version unchanged, in every request the function sends and in the request `main`
sends for an accepted version; distinct versions give distinct URLs. -/
theorem fetchRelease_url_verbatim :
    (∀ v : String, fetchRelease.url v =
      "https://api.github.com/repos/vscodev/neokikoeru/releases/tags/v" ++ v) ∧
    (∀ (w : World) (v : String) (req : Request),
      Event.httpDo req ∈ (fetchRelease w v).1 →
        req.URL = "https://api.github.com/repos/vscodev/neokikoeru/releases/tags/v" ++ v) ∧
    (∀ w : World, versionAccepted (w.Getenv _versionEnvKey) = true →
      ∃ (req : Request) (rest : List Event),
        (main w).events = .getenv _versionEnvKey :: .httpDo req :: rest ∧
        req.URL = "https://api.github.com/repos/vscodev/neokikoeru/releases/tags/v" ++
          w.Getenv _versionEnvKey) ∧
    (∀ v₁ v₂ : String, v₁ ≠ v₂ → fetchRelease.url v₁ ≠ fetchRelease.url v₂) := by
  refine ⟨fetchRelease_url_eq, ?_, ?_, ?_⟩
  · intro w v req hreq
    have hurl : (fetchRelease.req v).URL = fetchRelease.url v := rfl
    rcases fetchRelease_events w v with e | e <;>
      (rw [e] at hreq; simp at hreq; rw [hreq, hurl, fetchRelease_url_eq])
  · intro w h
    obtain ⟨rest, hm⟩ := main_of_accepted_events w h
    exact ⟨_, rest, hm, fetchRelease_url_eq _⟩
  · intro v₁ v₂ hne h
    rw [fetchRelease_url_eq, fetchRelease_url_eq] at h
    exact hne (string_append_left_cancel _ _ _ h)

/-- C6 at the version `10.0.27`. -/
theorem fetchRelease_url_verbatim_witness :
    fetchRelease.url "10.0.27" =
      "https://api.github.com/repos/vscodev/neokikoeru/releases/tags/v10.0.27" :=
  (fetchRelease_url_verbatim.1 "10.0.27").trans (by decide)

/-- C5: when the response has a status other than 200 and its body decodes to an
`Error` with message `m`, `fetchRelease` returns no release and the error `m`; then
`main` ends fatally with `m` as its message and never opens or writes the bucket
file. When the body does not decode, the error returned is the decode error. -/
theorem fetchRelease_non200 (w : World) (version : String) (resp : Response)
    (hdo : w.Do (fetchRelease.req version) = .ok resp) (hs : resp.StatusCode ≠ 200) :
    (∀ m : String, w.DecodeError resp.Body = .ok ⟨m⟩ →
      (fetchRelease w version).2 = .error m ∧
      (version = w.Getenv _versionEnvKey → versionAccepted version = true →
        main w =
          { events := [.getenv _versionEnvKey, .httpDo (fetchRelease.req version),
              .bodyClose, .logFatal m]
            exit := 1 } ∧
        (∀ path, Event.openFile path ∉ (main w).events) ∧
        (∀ b, Event.execute b ∉ (main w).events))) ∧
    (∀ e : String, w.DecodeError resp.Body = .error e →
      (fetchRelease w version).2 = .error e) := by
  constructor
  · intro m hm
    have hf : fetchRelease w version =
        ([.httpDo (fetchRelease.req version), .bodyClose], .error m) := by
      unfold fetchRelease
      simp only [hdo, hs, hm, ne_eq, not_false_eq_true, if_true]
    refine ⟨by rw [hf], ?_⟩
    intro hv hacc
    subst hv
    have hmain := main_of_fetch_error w _ m hacc hf
    refine ⟨hmain, ?_, ?_⟩
    · intro path
      rw [hmain]
      simp
    · intro b
      rw [hmain]
      simp
  · intro e he
    unfold fetchRelease
    simp only [hdo, hs, he, ne_eq, not_false_eq_true, if_true]

/-- C5 at a 404 response whose body carries the message `Not Found`. -/
theorem fetchRelease_non200_witness :
    (fetchRelease worldNotFound "1.2.3").2 = .error "Not Found" ∧
    main worldNotFound =
      { events := [.getenv _versionEnvKey, .httpDo (fetchRelease.req "1.2.3"),
          .bodyClose, .logFatal "Not Found"]
        exit := 1 } :=
  have h := (fetchRelease_non200 worldNotFound "1.2.3"
    ⟨404, "\x7b\"message\":\"Not Found\"\x7d"⟩ rfl (by decide)).1 "Not Found" rfl
  ⟨h.1, (h.2 rfl (by decide)).1⟩

/-! ## The version resolver: claim C1 -/

/-- C1: the test of line 83 accepts a string exactly when it consists of three
non-empty runs of ASCII digits separated by single `.` characters, with nothing
before or after; the empty string, `v1.2.3`, `1.2`, `1.2.3-beta`, `1.2.3.4` and
`1.2.3` followed by a newline are rejected. On a rejected value `main` ends fatally
right after reading the variable: no request is sent. On an accepted value the
request is sent. -/
theorem version_resolver_accepts_exactly_semver :
    (∀ v : String, versionAccepted v = true ↔ SemverShape v) ∧
    (versionAccepted "" = false ∧ versionAccepted "v1.2.3" = false ∧
      versionAccepted "1.2" = false ∧ versionAccepted "1.2.3-beta" = false ∧
      versionAccepted "1.2.3.4" = false ∧ versionAccepted "1.2.3\n" = false) ∧
    (∀ w : World, ¬ SemverShape (w.Getenv _versionEnvKey) →
      (main w).exit = 1 ∧
      (main w).events =
        [.getenv _versionEnvKey,
         .logFatal
           "$NEOKIKOERU_VERSION is not a valid version. Please provide a valid semver"] ∧
      ∀ req, Event.httpDo req ∉ (main w).events) ∧
    (∀ w : World, SemverShape (w.Getenv _versionEnvKey) →
      ∃ rest, (main w).events =
        .getenv _versionEnvKey ::
          .httpDo (fetchRelease.req (w.Getenv _versionEnvKey)) :: rest) := by
  refine ⟨versionAccepted_iff, by decide, ?_, ?_⟩
  · intro w hw
    have h : versionAccepted (w.Getenv _versionEnvKey) = false := by
      rw [← Bool.not_eq_true, versionAccepted_iff]
      exact hw
    rw [main_of_rejected w h]
    refine ⟨rfl, rfl, ?_⟩
    intro req
    simp
  · intro w hw
    exact main_of_accepted_events w ((versionAccepted_iff _).2 hw)

/-- C1 at a world whose variable holds `v1.2.3`: the run is the reading of the
variable and the fatal message. -/
theorem version_resolver_accepts_exactly_semver_witness :
    (main worldBadVersion).exit = 1 ∧
    (main worldBadVersion).events =
      [.getenv _versionEnvKey,
       .logFatal
         "$NEOKIKOERU_VERSION is not a valid version. Please provide a valid semver"] ∧
    SemverShape "1.2.3" :=
  have h := version_resolver_accepts_exactly_semver.2.2.1 worldBadVersion
    (fun hs => absurd ((version_resolver_accepts_exactly_semver.1 "v1.2.3").2 hs)
      (by decide))
  ⟨h.1, h.2.1, (version_resolver_accepts_exactly_semver.1 "1.2.3").1 (by decide)⟩

/-! ## The renderer: claim C8 -/

/-- C8, evaluated on the code: in the world where executing the template fails,
`main` opens the bucket file, executes the template and ends in `log.Fatal` with
status 1; the deferred `bucketFile.Close()` does not run. The same holds in every
world in which the file is opened and the execution fails. In the world where every
step succeeds the file is closed after the execution. -/
theorem main_execute_error_skips_close :
    main worldExecuteFails =
      { events := [.getenv _versionEnvKey, .httpDo (fetchRelease.req "1.2.3"), .bodyClose,
          .parseFiles templatePath, .openFile bucketPath,
          .execute ⟨"1.2.3", "https://h/amd", "aa", "https://h/arm", "bb"⟩,
          .logFatal "template: cannot evaluate field"]
        exit := 1 } ∧
    Event.openFile bucketPath ∈ (main worldExecuteFails).events ∧
    Event.fileClose ∉ (main worldExecuteFails).events ∧
    (∀ (w : World) (evs : List Event) (release : Release) (err : String),
      versionAccepted (w.Getenv _versionEnvKey) = true →
      fetchRelease w (w.Getenv _versionEnvKey) = (evs, .ok release) →
      w.ParseFiles templatePath = .ok () →
      w.OpenFile bucketPath = .ok () →
      w.Execute (mapAssets (w.Getenv _versionEnvKey) release.Assets) = .error err →
      (main w).exit = 1 ∧
      Event.openFile bucketPath ∈ (main w).events ∧
      Event.fileClose ∉ (main w).events) ∧
    main worldSuccess =
      { events := [.getenv _versionEnvKey, .httpDo (fetchRelease.req "1.2.3"), .bodyClose,
          .parseFiles templatePath, .openFile bucketPath,
          .execute ⟨"1.2.3", "https://h/amd", "aa", "https://h/arm", "bb"⟩,
          .fileClose, .cancel]
        exit := 0 } := by
  refine ⟨by decide, by decide, by decide, ?_, by decide⟩
  intro w evs release err h hf hp ho he
  have hev := fetchRelease_events w (w.Getenv _versionEnvKey)
  rw [hf] at hev
  rw [main_of_fetch_ok w evs release h hf]
  simp only [hp, ho, he]
  rcases hev with e | e <;> (simp only at e; subst e; simp)

end Neokikoeru
